import Mathlib

/-!
Verification of the mini-FFT spectral peak-search core (`minifft.c`).

The development shallowly embeds the three functions of the source file —
`search_minifft`, `padfftlen` and `percolate_pows_and_freqs` — over `ℚ`
(the C `float` arithmetic is modelled exactly over the rationals) and
`List ℚ` (C arrays).  External collaborators that are not part of the
source file (the FFT, the response-kernel generator, the correlation
routine, `spread_no_pad`, `sqrt` and `r_resp_halfwidth`) are taken as
parameters or modelled from the specification, as noted at each
definition.
-/

namespace Presto

/-! ### Generic list-array helpers

C arrays are modelled as `List ℚ`; `a[i]` reads become `l.getD i 0` and
`a[i] = v` writes become `l.set i v`.  The lemmas below describe reading
after a write and are shared by all later proofs. -/

theorem getD_set_self {α : Type} (d v : α) :
    ∀ (l : List α) (i : ℕ), i < l.length → (l.set i v).getD i d = v := by
  intro l
  induction l with
  | nil => intro i h; simp at h
  | cons x t ih =>
      intro i h
      cases i with
      | zero => simp [List.getD]
      | succ j =>
          simp only [List.set_cons_succ, List.getD_cons_succ]
          exact ih j (by simpa using h)

theorem getD_set_other {α : Type} (d v : α) :
    ∀ (l : List α) (i j : ℕ), i ≠ j → (l.set i v).getD j d = l.getD j d := by
  intro l
  induction l with
  | nil => intro i j _; simp [List.getD]
  | cons x t ih =>
      intro i j hne
      cases i with
      | zero =>
          cases j with
          | zero => exact absurd rfl hne
          | succ k => simp [List.getD]
      | succ i0 =>
          cases j with
          | zero => simp [List.getD]
          | succ k =>
              simp only [List.set_cons_succ, List.getD_cons_succ]
              exact ih i0 k (fun h => hne (by simp [h]))

theorem getD_out_of_range {α : Type} (d : α) :
    ∀ (l : List α) (i : ℕ), l.length ≤ i → l.getD i d = d := by
  intro l
  induction l with
  | nil => intro i _; simp [List.getD]
  | cons x t ih =>
      intro i h
      cases i with
      | zero => simp at h
      | succ j =>
          simp only [List.getD_cons_succ]
          exact ih j (by simpa using h)

/-! ### `padfftlen` (source lines 129–163)

`r_resp_halfwidth(LOWACC)` is an external collaborator (it lives in
another source file); its value is passed in as the parameter
`lowaccbins`.  Everything else is a direct transcription of the C
function.  The function returns the pair `(padlen, fft length)` since
the C version returns `padlen` through a pointer argument. -/

/-- The if-chain of source lines 147–162 choosing the final FFT length
from `newlen`. -/
def choosefftlen (newlen : ℕ) : ℕ :=
  if newlen ≤ 144 then newlen
  else if newlen ≤ 288 then 288
  else if newlen ≤ 540 then 540
  else if newlen ≤ 1080 then 1080
  else if newlen ≤ 2100 then 2100
  else if newlen ≤ 4200 then 4200
  else if newlen ≤ 8232 then 8232
  else if newlen ≤ 16464 then 16464
  else if newlen ≤ 32805 then 32805
  else if newlen ≤ 65610 then 65610
  else if newlen ≤ 131220 then 131220
  else if newlen ≤ 262440 then 262440
  else if newlen ≤ 525000 then 525000
  else if newlen ≤ 1050000 then 1050000
  else ((newlen + 1000) / 1000) * 1000

def padfftlen (minifftlen numbetween lowaccbins : ℕ) : ℕ × ℕ :=
  let padlen0 := minifftlen / 8
  let padlen := if padlen0 > lowaccbins then lowaccbins else padlen0
  (padlen, choosefftlen ((minifftlen + padlen) * numbetween))

/-- The fixed ascending table of highly factorable transform sizes that
appears in `padfftlen` (the spec's worked example treats `144` as a
table value, so it is included). -/
def goodSizes : List ℕ :=
  [144, 288, 540, 1080, 2100, 4200, 8232, 16464, 32805, 65610,
   131220, 262440, 525000, 1050000]

/-- The first entry of an (ascending) table that is `≥ n` — for an
ascending table, the smallest entry `≥ n`. -/
def smallestGE : List ℕ → ℕ → Option ℕ
  | [], _ => none
  | g :: t, n => if n ≤ g then some g else smallestGE t n

/-- The padding policy exactly as claim C2 words it: padding is
`min(len/8, lowaccbins)`; the returned length is the smallest table
entry `≥ (len + padding) × oversampling`, and beyond the largest
tabulated size it is that value rounded up to the nearest multiple of
1000.  This definition follows the claim's words, for comparison
against `padfftlen`, which is transcribed from the source. -/
def padfftlenClaimC2 (minifftlen numbetween lowaccbins : ℕ) : ℕ × ℕ :=
  let padlen := min (minifftlen / 8) lowaccbins
  let newlen := (minifftlen + padlen) * numbetween
  let result :=
    match smallestGE goodSizes newlen with
    | some g => g
    | none => ((newlen + 999) / 1000) * 1000
  (padlen, result)

/-- The behavior of `padfftlen` as the code actually implements it,
stated in the lookup style of the claim: lengths up to 144 are returned
unchanged; for larger lengths up to 1050000 the smallest table entry
`≥ newlen` is returned; beyond the table the result is the smallest
multiple of 1000 strictly greater than `newlen`. -/
def padfftlenAmended (minifftlen numbetween lowaccbins : ℕ) : ℕ × ℕ :=
  let padlen := min (minifftlen / 8) lowaccbins
  let newlen := (minifftlen + padlen) * numbetween
  let result :=
    if newlen ≤ 144 then newlen
    else
      match smallestGE goodSizes newlen with
      | some g => g
      | none => (newlen / 1000 + 1) * 1000
  (padlen, result)

/-! ### The complex spectrum and the power macro

C `fcomplex` values become pairs `ℚ × ℚ` (real, imaginary); the
`POWER(r,i)` macro of presto.h is `r*r + i*i`. -/

/-- The `POWER(r, i)` macro of presto.h — squared magnitude. -/
def POWER (r i : ℚ) : ℚ := r * r + i * i

/-- Modelled from the spec: `spread_no_pad` is an external collaborator
(only called here); per spec §4.3 it copies each input sample into every
second slot of the zero-initialized padded buffer (oversampling factor
2), leaving the other slots zero. -/
def spread_no_pad (minifft : List (ℚ × ℚ)) (numminifft numspread : ℕ) :
    List (ℚ × ℚ) :=
  (List.range numspread).map
    (fun k => if k % 2 = 0 ∧ k / 2 < numminifft then minifft.getD (k / 2) (0, 0) else (0, 0))

/-- Source lines 62–71: extract the Nyquist value from the imaginary
part of bin 0, set bin 0 to `(1, 0)`, scale every other even bin below
`2*numminifft` by `sqrtnorm`, and store `(nyquist, 0)` where the C
loop counter lands (index `2*numminifft`, or index 2 when
`numminifft = 0` since the loop then never runs). -/
def prepSpread (spread : List (ℚ × ℚ)) (numminifft : ℕ) (sqrtnorm : ℚ) :
    List (ℚ × ℚ) :=
  let nyquist := (spread.getD 0 (0, 0)).2 * sqrtnorm
  let s1 := spread.set 0 (1, 0)
  let s2 := (List.range' 2 (numminifft - 1) 2).foldl
    (fun a i => a.set i ((a.getD i (0, 0)).1 * sqrtnorm, (a.getD i (0, 0)).2 * sqrtnorm)) s1
  s2.set (if numminifft = 0 then 2 else 2 * numminifft) (nyquist, 0)

/-! ### Write-fold helpers

The C loops write into arrays; the two folds below capture the two
write shapes used by `search_minifft`: plain stores (`setUpds`) and
accumulating stores (`addUpds`). -/

/-- Execute a sequence of array stores `a[i] = v` left to right. -/
def setUpds (init : List ℚ) (l : List (ℕ × ℚ)) : List ℚ :=
  l.foldl (fun a u => a.set u.1 u.2) init

/-- Execute a sequence of accumulating stores `a[i] += v` left to right. -/
def addUpds (init : List ℚ) (l : List (ℕ × ℚ)) : List ℚ :=
  l.foldl (fun a u => a.set u.1 (a.getD u.1 0 + u.2)) init

/-! ### Harmonic summing (source lines 77–101) -/

/-- Shorthand for `POWER(spread[i].r, spread[i].i)` — the power of bin `i`. -/
def pwAt (spread : List (ℚ × ℚ)) (i : ℕ) : ℚ :=
  POWER (spread.getD i (0, 0)).1 (spread.getD i (0, 0)).2

/-- The mirroring loop of source lines 85–86 run for `ii = 1 .. K`:
each iteration stores `POWER(spread[ii])` both at `ii` and at
`4N - ii`. -/
def fullpowsLoop (spread : List (ℚ × ℚ)) (numminifft : ℕ) (init : List ℚ)
    (K : ℕ) : List ℚ :=
  (List.range' 1 K).foldl
    (fun a i => (a.set i (pwAt spread i)).set (4 * numminifft - i) (pwAt spread i)) init

/-- Source lines 82–86: the aliased power array for `harmsum > 1`.
`fullpows[0] = 1`, `fullpows[2N] = nyquist²`, and the double-store loop
runs for `ii = 1 .. 2N-1` (with `jj = 4N - ii`). -/
def fullpows (spread : List (ℚ × ℚ)) (numminifft : ℕ) (nyquist : ℚ) : List ℚ :=
  fullpowsLoop spread numminifft
    (((List.replicate (4 * numminifft) 0).set 0 1).set (2 * numminifft)
      (nyquist * nyquist))
    (2 * numminifft - 1)

/-- The target index `jj*ii + kk - offset` of the harmonic summing
store (source line 98), computed as the C `int` expression with
`offset = ii/2`. -/
def harmIndex (h jh k : ℕ) : ℤ := (jh * h + k : ℕ) - (h / 2 : ℕ)

/-- The flattened sequence of `sumpows[jj*ii + kk - offset] += fullpows[jj]`
stores of the triple loop at source lines 94–98, in execution order
(`ii = 1..harmsum`, `jj = 1..nmini4/ii - 1`, `kk = 0..ii-1`). -/
def harmSumUpds (fp : List ℚ) (numminifft harmsum : ℕ) : List (ℕ × ℚ) :=
  (List.range' 1 harmsum).flatMap (fun h =>
    (List.range' 1 (4 * numminifft / h - 1)).flatMap (fun jh =>
      (List.range h).map (fun k => ((harmIndex h jh k).toNat, fp.getD jh 0))))

/-- Source lines 90–99: `sumpows[0] = fullpows[0]`, all other entries
zeroed, then the triple harmonic-summing loop. -/
def sumpowsH (fp : List ℚ) (numminifft harmsum : ℕ) : List ℚ :=
  addUpds ((List.replicate (4 * numminifft) 0).set 0 (fp.getD 0 0))
    (harmSumUpds fp numminifft harmsum)

/-- The value claim C1 predicts at output position `p` of the harmonic
summing: starting from `fullpows[0]` at position 0 (0 elsewhere), every
triple `(h, jh, k)` with `1 ≤ h ≤ H`, `1 ≤ jh < 4N/h`, `0 ≤ k < h`
whose target `jh·h + k − ⌊h/2⌋` equals `p` contributes the power at
harmonic-source index `jh·h`.  This definition follows the claim's
words, for comparison against `sumpowsH`, which is transcribed from
the source. -/
def harmSumClaimC1 (fp : List ℚ) (numminifft harmsum p : ℕ) : ℚ :=
  (if p = 0 then fp.getD 0 0 else 0) +
  ((List.range' 1 harmsum).map (fun h =>
    ((List.range' 1 (4 * numminifft / h - 1)).map (fun jh =>
      ((List.range h).map (fun k =>
        if harmIndex h jh k = (p : ℤ) then fp.getD (jh * h) 0 else 0)).sum)).sum)).sum

/-- The pointwise value of the harmonic summing as the code computes
it: identical to `harmSumClaimC1` except that the contribution of the
triple `(h, jh, k)` is the power at base-frequency index `jh` (the
bin of harmonic group `jh`), which is what `fullpows[jj]` reads. -/
def harmSumAmendedC1 (fp : List ℚ) (numminifft harmsum p : ℕ) : ℚ :=
  (if p = 0 then fp.getD 0 0 else 0) +
  ((List.range' 1 harmsum).map (fun h =>
    ((List.range' 1 (4 * numminifft / h - 1)).map (fun jh =>
      ((List.range h).map (fun k =>
        if harmIndex h jh k = (p : ℤ) then fp.getD jh 0 else 0)).sum)).sum)).sum

/-- Source lines 102–109 (the `harmsum = 1` branch): direct powers with
bin 0 fixed at 1 and the Nyquist bin at `nyquist²`. -/
def sumpows1 (spread : List (ℚ × ℚ)) (numminifft : ℕ) (nyquist : ℚ) : List ℚ :=
  setUpds
    (((List.replicate (2 * numminifft + 1) 0).set 0 1).set (2 * numminifft)
      (nyquist * nyquist))
    ((List.range' 1 (2 * numminifft - 1)).map (fun i => (i, pwAt spread i)))

/-- Sorted by non-increasing value — "sorted by decreasing power" in
the source's comment. -/
def sortedDesc (l : List ℚ) : Prop := List.Sorted (fun a b => b ≤ a) l

/-! ### The percolation step (source lines 166–184) -/

/-- The C `SWAP` of `a[i]` and `a[j]`. -/
def swapAt (l : List ℚ) (i j : ℕ) : List ℚ :=
  (l.set i (l.getD j 0)).set j (l.getD i 0)

/-- The loop of `percolate_pows_and_freqs`: at loop counter `ii`,
compare `highpows[ii]` with `highpows[ii+1]`; swap both arrays and
continue downward on a strict increase, stop at the first pair already
in order. -/
def percAux : ℕ → List ℚ → List ℚ → List ℚ × List ℚ
  | 0, hp, hf =>
      if hp.getD 0 0 < hp.getD 1 0 then (swapAt hp 0 1, swapAt hf 0 1) else (hp, hf)
  | ii + 1, hp, hf =>
      if hp.getD (ii + 1) 0 < hp.getD (ii + 2) 0 then
        percAux ii (swapAt hp (ii + 1) (ii + 2)) (swapAt hf (ii + 1) (ii + 2))
      else (hp, hf)

/-- Source lines 166–184: percolate the last element leftward and
return the new last-slot power (`highpows[numcands-1]`). -/
def percolate_pows_and_freqs (hp hf : List ℚ) (numcands : ℕ) :
    (List ℚ × List ℚ) × ℚ :=
  if 2 ≤ numcands then
    let r := percAux (numcands - 2) hp hf
    (r, r.1.getD (numcands - 1) 0)
  else ((hp, hf), hp.getD (numcands - 1) 0)

/-! ### The candidate scan (source lines 113–123) -/

/-- One iteration of the search loop: when `sumpows[ii] > minpow`,
overwrite the last slots with `(sumpows[ii], 0.5*ii)` and percolate. -/
def candScanStep (numcands : ℕ) (sump : List ℚ)
    (st : List ℚ × List ℚ × ℚ) (i : ℕ) : List ℚ × List ℚ × ℚ :=
  if st.2.2 < sump.getD i 0 then
    let r := percolate_pows_and_freqs
      (st.1.set (numcands - 1) (sump.getD i 0))
      (st.2.1.set (numcands - 1) ((i : ℚ) / 2)) numcands
    (r.1.1, r.1.2, r.2)
  else st

/-- The state of the search loop after scanning bins `1 .. t`: both
candidate vectors start zeroed and `minpow` starts at 0. -/
def candScanUpto (sump : List ℚ) (numcands t : ℕ) : List ℚ × List ℚ × ℚ :=
  (List.range' 1 t).foldl (candScanStep numcands sump)
    (List.replicate numcands 0, List.replicate numcands 0, 0)

/-- The full search loop over bins `1 .. numtosearch - 1`. -/
def candScan (sump : List ℚ) (numtosearch numcands : ℕ) : List ℚ × List ℚ × ℚ :=
  candScanUpto sump numcands (numtosearch - 1)

/-! ### `search_minifft` assembled (source lines 10–126)

The correlation `complex_corr_conv` and the frequency-domain kernel are
external collaborators; they enter as the parameter `conv` and the
kernel list.  `sqrt(norm)` is computed by the external `sqrt`, so the
already-rooted value `sqrtnorm` is the parameter. -/

/-- The summed power array that the scan searches, together with
`numtosearch` (source lines 40–109). -/
def searchPowers (conv : List (ℚ × ℚ) → List (ℚ × ℚ) → List (ℚ × ℚ))
    (kernel : List (ℚ × ℚ)) (lowaccbins : ℕ) (minifft : List (ℚ × ℚ))
    (numminifft : ℕ) (sqrtnorm : ℚ) (harmsum : ℕ) : List ℚ × ℕ :=
  let numspread := (padfftlen numminifft 2 lowaccbins).2
  let spread0 := spread_no_pad minifft numminifft numspread
  let nyquist := (spread0.getD 0 (0, 0)).2 * sqrtnorm
  let spread := conv (prepSpread spread0 numminifft sqrtnorm) kernel
  if 1 < harmsum then
    (sumpowsH (fullpows spread numminifft nyquist) numminifft harmsum, numminifft * 4)
  else
    (sumpows1 spread numminifft nyquist, numminifft * 2 + 1)

/-- The whole of `search_minifft` for a given (already prepared)
frequency-domain kernel: returns `(highpows, highfreqs)`. -/
def search_minifft (conv : List (ℚ × ℚ) → List (ℚ × ℚ) → List (ℚ × ℚ))
    (kernel : List (ℚ × ℚ)) (lowaccbins : ℕ) (minifft : List (ℚ × ℚ))
    (numminifft : ℕ) (sqrtnorm : ℚ) (harmsum numcands : ℕ) :
    List ℚ × List ℚ :=
  let sp := searchPowers conv kernel lowaccbins minifft numminifft sqrtnorm harmsum
  let r := candScan sp.1 sp.2 numcands
  (r.1, r.2.1)

/-! ### The kernel cache (source lines 34–56)

The static variables `firsttime`, `old_numminifft` and `kernel` form the
process-wide cache.  Building a kernel for a given input length is a
deterministic composition of external collaborators
(`padfftlen`, `gen_r_response`, `place_complex_kernel`, `COMPLEXFFT`),
abstracted as the function `kernelFor`. -/

structure KernelCache where
  firsttime : Bool
  old_numminifft : ℕ
  kernel : List (ℚ × ℚ)

/-- Source lines 46–56: rebuild the kernel when this is the first call
or the input length changed; otherwise reuse the cached kernel. -/
def ensureKernel (kernelFor : ℕ → List (ℚ × ℚ)) (st : KernelCache)
    (numminifft : ℕ) : List (ℚ × ℚ) × KernelCache :=
  if st.firsttime ∨ st.old_numminifft ≠ numminifft then
    (kernelFor numminifft, ⟨false, numminifft, kernelFor numminifft⟩)
  else (st.kernel, st)

/-- The function `search_minifft` with the kernel cache threaded through, returning
the outputs and the cache state left behind for the next call. -/
def search_minifft_cached (kernelFor : ℕ → List (ℚ × ℚ))
    (conv : List (ℚ × ℚ) → List (ℚ × ℚ) → List (ℚ × ℚ)) (lowaccbins : ℕ)
    (st : KernelCache) (minifft : List (ℚ × ℚ)) (numminifft : ℕ)
    (sqrtnorm : ℚ) (harmsum numcands : ℕ) :
    (List ℚ × List ℚ) × KernelCache :=
  let r := ensureKernel kernelFor st numminifft
  (search_minifft conv r.1 lowaccbins minifft numminifft sqrtnorm harmsum numcands, r.2)

/-! ### Lemmas about `padfftlen` -/

theorem smallestGE_some_ge :
    ∀ (l : List ℕ) (n g : ℕ), smallestGE l n = some g → n ≤ g := by
  intro l
  induction l with
  | nil => intro n g h; simp [smallestGE] at h
  | cons a t ih =>
      intro n g h
      by_cases ha : n ≤ a
      · simp only [smallestGE, if_pos ha, Option.some.injEq] at h
        omega
      · simp only [smallestGE, if_neg ha] at h
        exact ih n g h

/-- The if-chain of `padfftlen` is the first-fit lookup in the ascending
table, with identity below 144 and the strict round-up to a multiple of
1000 beyond the table. -/
theorem choosefftlen_eq (n : ℕ) :
    choosefftlen n =
      if n ≤ 144 then n
      else
        match smallestGE goodSizes n with
        | some g => g
        | none => (n / 1000 + 1) * 1000 := by
  by_cases h1 : n ≤ 144
  · simp only [choosefftlen, if_pos h1]
  · by_cases h2 : n ≤ 288
    · simp only [choosefftlen, goodSizes, smallestGE, if_neg h1, if_pos h2]
    · by_cases h3 : n ≤ 540
      · simp only [choosefftlen, goodSizes, smallestGE, if_neg h1, if_neg h2, if_pos h3]
      · by_cases h4 : n ≤ 1080
        · simp only [choosefftlen, goodSizes, smallestGE, if_neg h1, if_neg h2, if_neg h3,
            if_pos h4]
        · by_cases h5 : n ≤ 2100
          · simp only [choosefftlen, goodSizes, smallestGE, if_neg h1, if_neg h2, if_neg h3,
              if_neg h4, if_pos h5]
          · by_cases h6 : n ≤ 4200
            · simp only [choosefftlen, goodSizes, smallestGE, if_neg h1, if_neg h2, if_neg h3,
                if_neg h4, if_neg h5, if_pos h6]
            · by_cases h7 : n ≤ 8232
              · simp only [choosefftlen, goodSizes, smallestGE, if_neg h1, if_neg h2, if_neg h3,
                  if_neg h4, if_neg h5, if_neg h6, if_pos h7]
              · by_cases h8 : n ≤ 16464
                · simp only [choosefftlen, goodSizes, smallestGE, if_neg h1, if_neg h2,
                    if_neg h3, if_neg h4, if_neg h5, if_neg h6, if_neg h7, if_pos h8]
                · by_cases h9 : n ≤ 32805
                  · simp only [choosefftlen, goodSizes, smallestGE, if_neg h1, if_neg h2,
                      if_neg h3, if_neg h4, if_neg h5, if_neg h6, if_neg h7, if_neg h8,
                      if_pos h9]
                  · by_cases h10 : n ≤ 65610
                    · simp only [choosefftlen, goodSizes, smallestGE, if_neg h1, if_neg h2,
                        if_neg h3, if_neg h4, if_neg h5, if_neg h6, if_neg h7, if_neg h8,
                        if_neg h9, if_pos h10]
                    · by_cases h11 : n ≤ 131220
                      · simp only [choosefftlen, goodSizes, smallestGE, if_neg h1, if_neg h2,
                          if_neg h3, if_neg h4, if_neg h5, if_neg h6, if_neg h7, if_neg h8,
                          if_neg h9, if_neg h10, if_pos h11]
                      · by_cases h12 : n ≤ 262440
                        · simp only [choosefftlen, goodSizes, smallestGE, if_neg h1, if_neg h2,
                            if_neg h3, if_neg h4, if_neg h5, if_neg h6, if_neg h7, if_neg h8,
                            if_neg h9, if_neg h10, if_neg h11, if_pos h12]
                        · by_cases h13 : n ≤ 525000
                          · simp only [choosefftlen, goodSizes, smallestGE, if_neg h1,
                              if_neg h2, if_neg h3, if_neg h4, if_neg h5, if_neg h6, if_neg h7,
                              if_neg h8, if_neg h9, if_neg h10, if_neg h11, if_neg h12,
                              if_pos h13]
                          · by_cases h14 : n ≤ 1050000
                            · simp only [choosefftlen, goodSizes, smallestGE, if_neg h1,
                                if_neg h2, if_neg h3, if_neg h4, if_neg h5, if_neg h6,
                                if_neg h7, if_neg h8, if_neg h9, if_neg h10, if_neg h11,
                                if_neg h12, if_neg h13, if_pos h14]
                            · simp only [choosefftlen, goodSizes, smallestGE, if_neg h1,
                                if_neg h2, if_neg h3, if_neg h4, if_neg h5, if_neg h6,
                                if_neg h7, if_neg h8, if_neg h9, if_neg h10, if_neg h11,
                                if_neg h12, if_neg h13, if_neg h14]
                              omega

theorem choosefftlen_ge (n : ℕ) : n ≤ choosefftlen n := by
  rw [choosefftlen_eq]
  by_cases h : n ≤ 144
  · rw [if_pos h]
  · rw [if_neg h]
    rcases hs : smallestGE goodSizes n with _ | g
    · show n ≤ (n / 1000 + 1) * 1000
      have hd : n / 1000 * 1000 ≤ n := Nat.div_mul_le_self n 1000
      omega
    · show n ≤ g
      exact smallestGE_some_ge _ _ _ hs

theorem padfftlen_padlen (m nb lab : ℕ) :
    (padfftlen m nb lab).1 = min (m / 8) lab := by
  show (if m / 8 > lab then lab else m / 8) = min (m / 8) lab
  split_ifs with h <;> omega

theorem padfftlen_ge (m nb lab : ℕ) :
    (m + (padfftlen m nb lab).1) * nb ≤ (padfftlen m nb lab).2 := by
  exact choosefftlen_ge _

/-- Claim C2, refuted: at the power-of-two input length 32 with
oversampling 2 (and half-width 16), `newlen = (32+4)*2 = 72 ≤ 144`, so
the code returns 72 itself, while the claim's table lookup returns the
smallest table entry `≥ 72`, namely 144. -/
theorem padfftlen_claim_counterexample :
    padfftlen 32 2 16 ≠ padfftlenClaimC2 32 2 16 := by decide

/-- Claim C2 as amended: `padfftlen` sets the padding length to
`min(len/8, lowaccbins)`; when `newlen = (len+padding)×oversampling`
is at most 144 it returns `newlen` itself; otherwise it returns the
smallest entry of the fixed ascending table that is `≥ newlen`; beyond
the largest tabulated size it returns the smallest multiple of 1000
strictly greater than `newlen`. -/
theorem padfftlen_amended_correct (m nb lab : ℕ) :
    padfftlen m nb lab = padfftlenAmended m nb lab := by
  simp only [padfftlen, padfftlenAmended]
  have hmin : (if m / 8 > lab then lab else m / 8) = min (m / 8) lab := by
    split_ifs with h <;> omega
  rw [hmin, choosefftlen_eq]

/-! ### Bounds of the harmonic-summing store index -/

theorem harmIndex_ge_one {h jh : ℕ} (k : ℕ) (hh : 1 ≤ h) (hjh : 1 ≤ jh) :
    1 ≤ harmIndex h jh k := by
  unfold harmIndex
  have hm : h ≤ jh * h := Nat.le_mul_of_pos_left h hjh
  omega

theorem harmIndex_lt {N h jh k : ℕ} (hh : 1 ≤ h) (hjh : jh < 4 * N / h)
    (hk : k < h) : harmIndex h jh k < 4 * N := by
  unfold harmIndex
  have h1 : (jh + 1) * h ≤ 4 * N / h * h := Nat.mul_le_mul_right h hjh
  have h2 : 4 * N / h * h ≤ 4 * N := Nat.div_mul_le_self _ _
  have h3 : jh * h + h ≤ 4 * N := by
    calc jh * h + h = (jh + 1) * h := by ring
    _ ≤ 4 * N / h * h := h1
    _ ≤ 4 * N := h2
  omega

/-- Claim C8: for every harmonic count `H ≥ 1`, harmonic order
`1 ≤ h ≤ H`, harmonic group `1 ≤ jh < 4N/h` and sub-offset `k < h`,
the store index `jh·h + k − ⌊h/2⌋` of the harmonic summing loop is
never below 1 (so bin 0 is never touched) and is always strictly below
the array length `4N`. -/
theorem harmonic_index_in_bounds (N H h jh k : ℕ) (hH : 1 ≤ H) (hh1 : 1 ≤ h)
    (hhH : h ≤ H) (hjh1 : 1 ≤ jh) (hjh2 : jh < 4 * N / h) (hk : k < h) :
    1 ≤ harmIndex h jh k ∧ harmIndex h jh k < 4 * N :=
  ⟨harmIndex_ge_one k hh1 hjh1, harmIndex_lt hh1 hjh2 hk⟩

theorem harmonic_index_in_bounds_witness :
    1 ≤ harmIndex 2 1 0 ∧ harmIndex 2 1 0 < 4 * 1 :=
  harmonic_index_in_bounds 1 2 2 1 0 (by decide) (by decide) (by decide)
    (by decide) (by decide) (by decide)

/-! ### Reading the write-folds -/

theorem setUpds_length : ∀ (l : List (ℕ × ℚ)) (init : List ℚ),
    (setUpds init l).length = init.length := by
  intro l
  induction l with
  | nil => intro init; rfl
  | cons u t ih =>
      intro init
      show (setUpds (init.set u.1 u.2) t).length = _
      rw [ih, List.length_set]

theorem addUpds_length : ∀ (l : List (ℕ × ℚ)) (init : List ℚ),
    (addUpds init l).length = init.length := by
  intro l
  induction l with
  | nil => intro init; rfl
  | cons u t ih =>
      intro init
      show (addUpds (init.set u.1 _) t).length = _
      rw [ih, List.length_set]

theorem getD_setUpds_not_mem : ∀ (l : List (ℕ × ℚ)) (init : List ℚ) (p : ℕ),
    (∀ u ∈ l, u.1 ≠ p) → (setUpds init l).getD p 0 = init.getD p 0 := by
  intro l
  induction l with
  | nil => intro init p _; rfl
  | cons u t ih =>
      intro init p hne
      show (setUpds (init.set u.1 u.2) t).getD p 0 = _
      rw [ih _ _ (fun v hv => hne v (List.mem_cons_of_mem u hv)),
        getD_set_other _ _ _ _ _ (hne u (List.mem_cons_self u t))]

theorem getD_addUpds : ∀ (l : List (ℕ × ℚ)) (init : List ℚ) (p : ℕ),
    (∀ u ∈ l, u.1 < init.length) →
    (addUpds init l).getD p 0 =
      init.getD p 0 + ((l.filter (fun u => u.1 = p)).map (fun u => u.2)).sum := by
  intro l
  induction l with
  | nil => intro init p _; simp [addUpds]
  | cons u t ih =>
      intro init p hb
      show (addUpds (init.set u.1 (init.getD u.1 0 + u.2)) t).getD p 0 = _
      rw [ih _ p (fun v hv => by
        rw [List.length_set]; exact hb v (List.mem_cons_of_mem u hv))]
      by_cases hup : u.1 = p
      · subst hup
        rw [getD_set_self _ _ _ _ (hb u (List.mem_cons_self u t))]
        simp [List.filter_cons, add_assoc]
      · rw [getD_set_other _ _ _ _ _ hup]
        simp [List.filter_cons, hup]

/-! ### The aliased power array -/

theorem fullpowsLoop_length (spread : List (ℚ × ℚ)) (N : ℕ) :
    ∀ (K : ℕ) (init : List ℚ), (fullpowsLoop spread N init K).length = init.length := by
  intro K
  induction K with
  | zero => intro init; rfl
  | succ K ih =>
      intro init
      unfold fullpowsLoop
      rw [List.range'_1_concat, List.foldl_append]
      show (((fullpowsLoop spread N init K).set _ _).set _ _).length = _
      rw [List.length_set, List.length_set, ih]

theorem fullpowsLoop_getD (spread : List (ℚ × ℚ)) (N : ℕ) (hN : 1 ≤ N) :
    ∀ (K : ℕ) (init : List ℚ), init.length = 4 * N → K ≤ 2 * N - 1 → ∀ j,
    (fullpowsLoop spread N init K).getD j 0 =
      if 1 ≤ j ∧ j ≤ K then pwAt spread j
      else if 1 ≤ K ∧ 4 * N - K ≤ j ∧ j < 4 * N then pwAt spread (4 * N - j)
      else init.getD j 0 := by
  intro K
  induction K with
  | zero =>
      intro init _ _ j
      show init.getD j 0 = _
      rw [if_neg (by omega), if_neg (by omega)]
  | succ K ih =>
      intro init hlen hK j
      have hL : (fullpowsLoop spread N init K).length = 4 * N := by
        rw [fullpowsLoop_length, hlen]
      have hstep : fullpowsLoop spread N init (K + 1) =
          ((fullpowsLoop spread N init K).set (1 + K) (pwAt spread (1 + K))).set
            (4 * N - (1 + K)) (pwAt spread (1 + K)) := by
        unfold fullpowsLoop
        rw [List.range'_1_concat, List.foldl_append]
        rfl
      have h1K : 1 + K = K + 1 := Nat.add_comm 1 K
      rw [h1K] at hstep
      rw [hstep]
      by_cases hj1 : j = 4 * N - (K + 1)
      · subst hj1
        rw [getD_set_self _ _ _ _ (by rw [List.length_set, hL]; omega)]
        split_ifs <;> first | omega | (congr 1 <;> omega)
      · rw [getD_set_other _ _ _ _ _ (fun h => hj1 h.symm)]
        by_cases hj2 : j = K + 1
        · subst hj2
          rw [getD_set_self _ _ _ _ (by rw [hL]; omega)]
          split_ifs <;> first | rfl | omega | (congr 1 <;> omega)
        · rw [getD_set_other _ _ _ _ _ (fun h => hj2 h.symm)]
          rw [ih init hlen (by omega) j]
          split_ifs <;> first | rfl | omega | (congr 1 <;> omega)

theorem getD_replicate_zero : ∀ (n j : ℕ), (List.replicate n (0 : ℚ)).getD j 0 = 0 := by
  intro n
  induction n with
  | zero => intro j; rfl
  | succ m ih =>
      intro j
      cases j with
      | zero => rfl
      | succ i => exact ih i

theorem fullpows_init_length (N : ℕ) (nyq : ℚ) :
    (((List.replicate (4 * N) (0 : ℚ)).set 0 1).set (2 * N)
      (nyq * nyq)).length = 4 * N := by
  rw [List.length_set, List.length_set, List.length_replicate]

theorem fullpows_length (spread : List (ℚ × ℚ)) (N : ℕ) (nyq : ℚ) :
    (fullpows spread N nyq).length = 4 * N := by
  unfold fullpows
  rw [fullpowsLoop_length, fullpows_init_length]

theorem fullpows_getD_zero (spread : List (ℚ × ℚ)) (N : ℕ) (nyq : ℚ) (hN : 1 ≤ N) :
    (fullpows spread N nyq).getD 0 0 = 1 := by
  unfold fullpows
  rw [fullpowsLoop_getD spread N hN _ _ (fullpows_init_length N nyq) (by omega) 0]
  rw [if_neg (by omega), if_neg (by omega)]
  rw [getD_set_other _ _ _ _ _ (by omega)]
  rw [getD_set_self _ _ _ _ (by rw [List.length_replicate]; omega)]

theorem fullpows_getD_mid (spread : List (ℚ × ℚ)) (N : ℕ) (nyq : ℚ) (hN : 1 ≤ N) :
    (fullpows spread N nyq).getD (2 * N) 0 = nyq * nyq := by
  unfold fullpows
  rw [fullpowsLoop_getD spread N hN _ _ (fullpows_init_length N nyq) (by omega) (2 * N)]
  rw [if_neg (by omega), if_neg (by omega)]
  rw [getD_set_self _ _ _ _ (by rw [List.length_set, List.length_replicate]; omega)]

theorem fullpows_getD_low (spread : List (ℚ × ℚ)) (N : ℕ) (nyq : ℚ) (hN : 1 ≤ N)
    (j : ℕ) (h1 : 1 ≤ j) (h2 : j ≤ 2 * N - 1) :
    (fullpows spread N nyq).getD j 0 = pwAt spread j := by
  unfold fullpows
  rw [fullpowsLoop_getD spread N hN _ _ (fullpows_init_length N nyq) (by omega) j]
  rw [if_pos ⟨h1, h2⟩]

theorem fullpows_getD_high (spread : List (ℚ × ℚ)) (N : ℕ) (nyq : ℚ) (hN : 1 ≤ N)
    (j : ℕ) (h1 : 2 * N < j) (h2 : j < 4 * N) :
    (fullpows spread N nyq).getD j 0 = pwAt spread (4 * N - j) := by
  unfold fullpows
  rw [fullpowsLoop_getD spread N hN _ _ (fullpows_init_length N nyq) (by omega) j]
  rw [if_neg (by omega), if_pos (by omega)]

theorem fullpows_getD_past (spread : List (ℚ × ℚ)) (N : ℕ) (nyq : ℚ) (hN : 1 ≤ N)
    (j : ℕ) (h : 4 * N ≤ j) :
    (fullpows spread N nyq).getD j 0 = 0 := by
  unfold fullpows
  rw [fullpowsLoop_getD spread N hN _ _ (fullpows_init_length N nyq) (by omega) j]
  rw [if_neg (by omega), if_neg (by omega)]
  rw [getD_set_other _ _ _ _ _ (by omega), getD_set_other _ _ _ _ _ (by omega)]
  exact getD_replicate_zero _ _

/-- Claim C6: the aliased power array is symmetric about `2N` —
`fullpows[i] = fullpows[4N − i]` for `0 < i < 2N`, with `fullpows[0]`
fixed at 1 and `fullpows[2N]` fixed at `nyquist²`. -/
theorem fullpows_symmetric (spread : List (ℚ × ℚ)) (N : ℕ) (nyq : ℚ)
    (harmsum : ℕ) (hH : 1 < harmsum) (hN : 1 ≤ N) :
    (∀ i, 0 < i → i < 2 * N →
      (fullpows spread N nyq).getD i 0 = (fullpows spread N nyq).getD (4 * N - i) 0) ∧
    (fullpows spread N nyq).getD 0 0 = 1 ∧
    (fullpows spread N nyq).getD (2 * N) 0 = nyq * nyq := by
  refine ⟨fun i hi1 hi2 => ?_, fullpows_getD_zero spread N nyq hN,
    fullpows_getD_mid spread N nyq hN⟩
  by_cases hmid : i = 2 * N
  · omega
  · rw [fullpows_getD_low spread N nyq hN i (by omega) (by omega)]
    rw [fullpows_getD_high spread N nyq hN (4 * N - i) (by omega) (by omega)]
    have h4 : 4 * N - (4 * N - i) = i := by omega
    rw [h4]

theorem fullpows_symmetric_witness :
    (fullpows [((0 : ℚ), (0 : ℚ)), (3, 4)] 1 2).getD 1 0 =
      (fullpows [((0 : ℚ), (0 : ℚ)), (3, 4)] 1 2).getD 3 0 ∧
    (fullpows [((0 : ℚ), (0 : ℚ)), (3, 4)] 1 2).getD 0 0 = 1 ∧
    (fullpows [((0 : ℚ), (0 : ℚ)), (3, 4)] 1 2).getD 2 0 = 2 * 2 := by
  have h := fullpows_symmetric [((0 : ℚ), (0 : ℚ)), (3, 4)] 1 2 2 (by decide) (by decide)
  exact ⟨h.1 1 (by decide) (by decide), h.2.1, h.2.2⟩

/-! ### The `harmsum = 1` power array -/

theorem sumpows1_length (spread : List (ℚ × ℚ)) (N : ℕ) (nyq : ℚ) :
    (sumpows1 spread N nyq).length = 2 * N + 1 := by
  unfold sumpows1
  rw [setUpds_length, List.length_set, List.length_set, List.length_replicate]

theorem sumpows1_upds_ge_one (spread : List (ℚ × ℚ)) (N : ℕ) :
    ∀ u ∈ (List.range' 1 (2 * N - 1)).map (fun i => (i, pwAt spread i)),
      1 ≤ u.1 ∧ u.1 ≤ 2 * N - 1 := by
  intro u hu
  obtain ⟨i, hi, rfl⟩ := List.mem_map.mp hu
  obtain ⟨k, hk, rfl⟩ := List.mem_range'.mp hi
  omega

theorem sumpows1_getD_zero (spread : List (ℚ × ℚ)) (N : ℕ) (nyq : ℚ) (hN : 1 ≤ N) :
    (sumpows1 spread N nyq).getD 0 0 = 1 := by
  unfold sumpows1
  rw [getD_setUpds_not_mem _ _ _
    (fun u hu => by have := sumpows1_upds_ge_one spread N u hu; omega)]
  rw [getD_set_other _ _ _ _ _ (by omega)]
  rw [getD_set_self _ _ _ _ (by rw [List.length_replicate]; omega)]

theorem sumpows1_getD_mid (spread : List (ℚ × ℚ)) (N : ℕ) (nyq : ℚ) (hN : 1 ≤ N) :
    (sumpows1 spread N nyq).getD (2 * N) 0 = nyq * nyq := by
  unfold sumpows1
  rw [getD_setUpds_not_mem _ _ _
    (fun u hu => by have := sumpows1_upds_ge_one spread N u hu; omega)]
  rw [getD_set_self _ _ _ _ (by rw [List.length_set, List.length_replicate]; omega)]

/-! ### The searched array for a single harmonic -/

theorem spread_no_pad_getD_zero (minifft : List (ℚ × ℚ)) (N ns : ℕ)
    (hns : 0 < ns) (hN : 0 < N) :
    (spread_no_pad minifft N ns).getD 0 (0, 0) = minifft.getD 0 (0, 0) := by
  unfold spread_no_pad
  obtain ⟨m, rfl⟩ : ∃ m, ns = m + 1 := ⟨ns - 1, by omega⟩
  rw [List.range_succ_eq_map, List.map_cons, List.getD_cons_zero]
  rw [if_pos ⟨rfl, hN⟩]

theorem numspread_pos (N lab : ℕ) (hN : 1 ≤ N) : 0 < (padfftlen N 2 lab).2 := by
  have h := padfftlen_ge N 2 lab
  omega

/-- Claim C4: with `harmonics = 1` the searched power array has length
exactly `2N + 1`, bin 0 holds exactly 1, and bin `2N` holds exactly
`(nyquist × sqrt(norm))²` where `nyquist` is the imaginary component of
input bin 0 (`sqrtnorm` is the externally computed `sqrt(norm)`). -/
theorem sumpows_single_harmonic_endpoints
    (conv : List (ℚ × ℚ) → List (ℚ × ℚ) → List (ℚ × ℚ)) (kernel : List (ℚ × ℚ))
    (lowaccbins : ℕ) (minifft : List (ℚ × ℚ)) (N : ℕ) (sqrtnorm : ℚ)
    (hN : 1 ≤ N) :
    (searchPowers conv kernel lowaccbins minifft N sqrtnorm 1).1.length = 2 * N + 1 ∧
    (searchPowers conv kernel lowaccbins minifft N sqrtnorm 1).2 = 2 * N + 1 ∧
    (searchPowers conv kernel lowaccbins minifft N sqrtnorm 1).1.getD 0 0 = 1 ∧
    (searchPowers conv kernel lowaccbins minifft N sqrtnorm 1).1.getD (2 * N) 0 =
      ((minifft.getD 0 (0, 0)).2 * sqrtnorm) ^ 2 := by
  have hsp : searchPowers conv kernel lowaccbins minifft N sqrtnorm 1 =
      (sumpows1
        (conv (prepSpread (spread_no_pad minifft N ((padfftlen N 2 lowaccbins).2))
          N sqrtnorm) kernel) N
        (((spread_no_pad minifft N ((padfftlen N 2 lowaccbins).2)).getD 0 (0, 0)).2 *
          sqrtnorm),
        N * 2 + 1) := by
    simp only [searchPowers]
    rw [if_neg (lt_irrefl 1)]
  rw [hsp]
  have hnyq : ((spread_no_pad minifft N ((padfftlen N 2 lowaccbins).2)).getD 0 (0, 0)).2 =
      (minifft.getD 0 (0, 0)).2 := by
    rw [spread_no_pad_getD_zero minifft N _ (numspread_pos N lowaccbins hN) (by omega)]
  refine ⟨sumpows1_length _ _ _, by omega, sumpows1_getD_zero _ _ _ hN, ?_⟩
  rw [sumpows1_getD_mid _ _ _ hN, hnyq, sq]

theorem sumpows_single_harmonic_endpoints_witness :
    (searchPowers (fun d _ => d) [] 16 [((1 : ℚ), (2 : ℚ))] 1 3 1).1.length = 2 * 1 + 1 ∧
    (searchPowers (fun d _ => d) [] 16 [((1 : ℚ), (2 : ℚ))] 1 3 1).2 = 2 * 1 + 1 ∧
    (searchPowers (fun d _ => d) [] 16 [((1 : ℚ), (2 : ℚ))] 1 3 1).1.getD 0 0 = 1 ∧
    (searchPowers (fun d _ => d) [] 16 [((1 : ℚ), (2 : ℚ))] 1 3 1).1.getD (2 * 1) 0 =
      (([((1 : ℚ), (2 : ℚ))].getD 0 (0, 0)).2 * 3) ^ 2 :=
  sumpows_single_harmonic_endpoints (fun d _ => d) [] 16 [((1 : ℚ), (2 : ℚ))] 1 3
    (by decide)

/-! ### The harmonic summing, pointwise -/

theorem sum_map_filter_flatMap {α : Type} (p : ℕ) (f : α → List (ℕ × ℚ)) :
    ∀ (l : List α),
    (((l.flatMap f).filter (fun u => u.1 = p)).map (fun u => u.2)).sum =
      (l.map (fun x => (((f x).filter (fun u => u.1 = p)).map (fun u => u.2)).sum)).sum := by
  intro l
  induction l with
  | nil => rfl
  | cons x t ih =>
      rw [List.flatMap_cons, List.filter_append, List.map_append, List.sum_append,
        List.map_cons, List.sum_cons, ih]

theorem sum_map_filter_map {α : Type} (p : ℕ) (g : α → ℕ × ℚ) :
    ∀ (l : List α),
    (((l.map g).filter (fun u => u.1 = p)).map (fun u => u.2)).sum =
      (l.map (fun x => if (g x).1 = p then (g x).2 else 0)).sum := by
  intro l
  induction l with
  | nil => rfl
  | cons x t ih =>
      rw [List.map_cons, List.filter_cons, List.map_cons, List.sum_cons, ← ih]
      by_cases hx : (g x).1 = p
      · simp [hx]
      · simp [hx]

theorem mem_harmSumUpds (fp : List ℚ) (N H : ℕ) :
    ∀ u ∈ harmSumUpds fp N H, ∃ h jh k, 1 ≤ h ∧ h ≤ H ∧ 1 ≤ jh ∧ jh < 4 * N / h ∧
      k < h ∧ u = ((harmIndex h jh k).toNat, fp.getD jh 0) := by
  intro u hu
  unfold harmSumUpds at hu
  obtain ⟨h, hh, hu⟩ := List.mem_flatMap.mp hu
  obtain ⟨jh, hjh, hu⟩ := List.mem_flatMap.mp hu
  obtain ⟨k, hk, rfl⟩ := List.mem_map.mp hu
  obtain ⟨i, hi, rfl⟩ := List.mem_range'.mp hh
  obtain ⟨i2, hi2, rfl⟩ := List.mem_range'.mp hjh
  exact ⟨_, _, k, by omega, by omega, by omega, by omega, List.mem_range.mp hk, rfl⟩

theorem harmSumUpds_bounds (fp : List ℚ) (N H : ℕ) :
    ∀ u ∈ harmSumUpds fp N H, u.1 < 4 * N := by
  intro u hu
  obtain ⟨h, jh, k, hh1, _, hjh1, hjh2, hk, rfl⟩ := mem_harmSumUpds fp N H u hu
  have hlt := harmIndex_lt hh1 hjh2 hk
  have hge := harmIndex_ge_one k hh1 hjh1
  simp only
  omega

theorem harmUpds_filter_sum (fp : List ℚ) (N H p : ℕ) :
    (((harmSumUpds fp N H).filter (fun u => u.1 = p)).map (fun u => u.2)).sum =
      ((List.range' 1 H).map (fun h =>
        ((List.range' 1 (4 * N / h - 1)).map (fun jh =>
          ((List.range h).map (fun k =>
            if harmIndex h jh k = (p : ℤ) then fp.getD jh 0 else 0)).sum)).sum)).sum := by
  unfold harmSumUpds
  rw [sum_map_filter_flatMap]
  refine congrArg List.sum (List.map_congr_left (fun h hh => ?_))
  rw [sum_map_filter_flatMap]
  refine congrArg List.sum (List.map_congr_left (fun jh hjh => ?_))
  rw [sum_map_filter_map]
  refine congrArg List.sum (List.map_congr_left (fun k hk => ?_))
  obtain ⟨i, hi, rfl⟩ := List.mem_range'.mp hh
  obtain ⟨i2, hi2, rfl⟩ := List.mem_range'.mp hjh
  have hge := @harmIndex_ge_one (1 + 1 * i) (1 + 1 * i2) k (by omega) (by omega)
  refine if_congr ?_ rfl rfl
  omega

/-- Claim C1 as amended: for `H > 1` the harmonic summing produces,
at every position `p < 4N`, the initial value (`fullpows[0]` at `p = 0`,
zero elsewhere) plus, for every harmonic order `1 ≤ h ≤ H`, harmonic
group `1 ≤ jh < 4N/h` and sub-offset `k < h` with `jh·h + k − ⌊h/2⌋ = p`,
the power at base-frequency index `jh` (not at index `jh·h`). -/
theorem harmonic_sum_amended (fp : List ℚ) (N H : ℕ) (hH : 1 < H) (p : ℕ)
    (hp : p < 4 * N) :
    (sumpowsH fp N H).getD p 0 = harmSumAmendedC1 fp N H p := by
  unfold sumpowsH harmSumAmendedC1
  rw [getD_addUpds _ _ _ (fun u hu => by
    rw [List.length_set, List.length_replicate]
    exact harmSumUpds_bounds fp N H u hu)]
  rw [harmUpds_filter_sum]
  by_cases hp0 : p = 0
  · subst hp0
    rw [getD_set_self _ _ _ _ (by rw [List.length_replicate]; omega), if_pos rfl]
  · rw [getD_set_other _ _ _ _ _ (fun hh => hp0 hh.symm), getD_replicate_zero,
      if_neg hp0]

theorem harmonic_sum_amended_witness :
    (sumpowsH [(1 : ℚ), 4, 1, 4] 1 2).getD 1 0 = harmSumAmendedC1 [(1 : ℚ), 4, 1, 4] 1 2 1 :=
  harmonic_sum_amended [(1 : ℚ), 4, 1, 4] 1 2 (by decide) 1 (by decide)

/-- Claim C1, refuted: for the call with `numminifft = 1`, `harmsum = 2`
and a convolved spectrum whose bin 1 is `(2, 0)` with Nyquist 1, the
aliased array is `[1, 4, 1, 4]`; the code's harmonic summing gives
`sumpows[1] = 8` (it adds `fullpows[jh]`), while the claim's formula
(adding the power at harmonic-source index `jh·h`) gives 5. -/
theorem harmonic_sum_claim_counterexample :
    (sumpowsH (fullpows [((0 : ℚ), (0 : ℚ)), (2, 0)] 1 1) 1 2).getD 1 0 ≠
      harmSumClaimC1 (fullpows [((0 : ℚ), (0 : ℚ)), (2, 0)] 1 1) 1 2 1 := by
  norm_num [fullpows, fullpowsLoop, pwAt, POWER, sumpowsH, harmSumUpds, addUpds,
    harmIndex, harmSumClaimC1, List.range', List.range_succ, List.set,
    List.replicate, List.getD, Int.toNat]

/-! ### Reading lists at an index -/

theorem getD_eq_getElem {α : Type} (d : α) (l : List α) (i : ℕ) (h : i < l.length) :
    l.getD i d = l[i] := by
  rw [List.getD_eq_getElem?_getD, List.getElem?_eq_getElem h]
  rfl

theorem getD_mem {α : Type} (d : α) (l : List α) (i : ℕ) (h : i < l.length) :
    l.getD i d ∈ l := by
  rw [getD_eq_getElem d l i h]
  exact List.getElem_mem h

theorem getD_append_cons {α : Type} (d : α) : ∀ (A : List α) (x : α) (t : List α),
    (A ++ x :: t).getD A.length d = x := by
  intro A
  induction A with
  | nil => intro x t; rfl
  | cons a A ih =>
      intro x t
      simp only [List.cons_append, List.length_cons, List.getD_cons_succ]
      exact ih x t

theorem set_append_cons {α : Type} : ∀ (A : List α) (x v : α) (t : List α),
    (A ++ x :: t).set A.length v = A ++ v :: t := by
  intro A
  induction A with
  | nil => intro x v t; rfl
  | cons a A ih =>
      intro x v t
      simp only [List.cons_append, List.length_cons, List.set_cons_succ]
      rw [ih]

/-! ### The swap of the percolation loop -/

theorem swapAt_length (l : List ℚ) (i j : ℕ) : (swapAt l i j).length = l.length := by
  simp [swapAt]

theorem swapAt_append (A : List ℚ) (x y : ℚ) (t : List ℚ) :
    swapAt (A ++ x :: y :: t) A.length (A.length + 1) = A ++ y :: x :: t := by
  unfold swapAt
  have h1 : (A ++ x :: y :: t).getD A.length 0 = x := getD_append_cons 0 A x (y :: t)
  have h2 : (A ++ x :: y :: t).getD (A.length + 1) 0 = y := by
    have he : A ++ x :: y :: t = (A ++ [x]) ++ y :: t := by simp
    have hlen : A.length + 1 = (A ++ [x]).length := by simp
    rw [he, hlen]
    exact getD_append_cons 0 (A ++ [x]) y t
  rw [h1, h2, set_append_cons]
  have he : A ++ y :: y :: t = (A ++ [y]) ++ y :: t := by simp
  have hlen : A.length + 1 = (A ++ [y]).length := by simp
  rw [he, hlen, set_append_cons]
  simp

theorem cons_set_perm {α : Type} (d : α) : ∀ (t : List α) (k : ℕ), k < t.length →
    ∀ x, ((t.getD k d) :: (t.set k x)).Perm (x :: t) := by
  intro t
  induction t with
  | nil => intro k hk; simp at hk
  | cons y t ih =>
      intro k hk x
      cases k with
      | zero =>
          simp only [List.getD_cons_zero, List.set_cons_zero]
          exact List.Perm.swap x y t
      | succ m =>
          simp only [List.getD_cons_succ, List.set_cons_succ]
          exact List.Perm.trans (List.Perm.swap y (t.getD m d) (t.set m x))
            (List.Perm.trans (List.Perm.cons y (ih m (by simpa using hk) x))
              (List.Perm.swap x y t))

theorem swapAt_perm : ∀ (l : List ℚ) (i j : ℕ), i < l.length → j < l.length →
    (swapAt l i j).Perm l := by
  intro l
  induction l with
  | nil => intro i j hi _; simp at hi
  | cons y t ih =>
      intro i j hi hj
      cases i with
      | zero =>
          cases j with
          | zero =>
              simp only [swapAt, List.getD_cons_zero, List.set_cons_zero]
              exact List.Perm.refl _
          | succ m =>
              simp only [swapAt, List.getD_cons_zero, List.getD_cons_succ,
                List.set_cons_zero, List.set_cons_succ]
              exact cons_set_perm 0 t m (by simpa using hj) y
      | succ k =>
          cases j with
          | zero =>
              simp only [swapAt, List.getD_cons_zero, List.getD_cons_succ,
                List.set_cons_zero, List.set_cons_succ]
              exact cons_set_perm 0 t k (by simpa using hi) y
          | succ m =>
              simp only [swapAt, List.getD_cons_succ, List.set_cons_succ]
              have h := ih k m (by simpa using hi) (by simpa using hj)
              unfold swapAt at h
              exact List.Perm.cons y h

/-! ### Zipping the two candidate vectors -/

theorem zip_set : ∀ (hp hf : List ℚ), hp.length = hf.length → ∀ (i : ℕ) (v w : ℚ),
    (hp.set i v).zip (hf.set i w) = (hp.zip hf).set i (v, w) := by
  intro hp
  induction hp with
  | nil =>
      intro hf h i v w
      cases hf with
      | nil => rfl
      | cons y s => simp at h
  | cons x t ih =>
      intro hf h i v w
      cases hf with
      | nil => simp at h
      | cons y s =>
          cases i with
          | zero => simp [List.zip_cons_cons]
          | succ k =>
              simp only [List.set_cons_succ, List.zip_cons_cons]
              rw [ih s (by simpa using h) k v w]

theorem zip_getD : ∀ (hp hf : List ℚ), hp.length = hf.length → ∀ j,
    (hp.zip hf).getD j (0, 0) = (hp.getD j 0, hf.getD j 0) := by
  intro hp
  induction hp with
  | nil =>
      intro hf h j
      cases hf with
      | nil => rfl
      | cons y s => simp at h
  | cons x t ih =>
      intro hf h j
      cases hf with
      | nil => simp at h
      | cons y s =>
          cases j with
          | zero => rfl
          | succ k =>
              simp only [List.zip_cons_cons, List.getD_cons_succ]
              exact ih s (by simpa using h) k

theorem mem_swapAt_pairs (hp hf : List ℚ) (hlen : hp.length = hf.length) (i j : ℕ)
    (hi : i < hp.length) (hj : j < hp.length) :
    ∀ x ∈ (swapAt hp i j).zip (swapAt hf i j), x ∈ hp.zip hf := by
  intro x hx
  unfold swapAt at hx
  rw [zip_set _ _ (by simp [hlen]) j, zip_set _ _ hlen i] at hx
  rcases List.mem_or_eq_of_mem_set hx with hx | rfl
  · rcases List.mem_or_eq_of_mem_set hx with hx | rfl
    · exact hx
    · rw [← zip_getD hp hf hlen j]
      exact getD_mem _ _ _ (by rw [List.length_zip, hlen, Nat.min_self]; omega)
  · rw [← zip_getD hp hf hlen i]
    exact getD_mem _ _ _ (by rw [List.length_zip, hlen, Nat.min_self]; omega)

/-! ### The percolation loop -/

theorem percAux_zero (hp hf : List ℚ) :
    percAux 0 hp hf =
      if hp.getD 0 0 < hp.getD 1 0 then (swapAt hp 0 1, swapAt hf 0 1)
      else (hp, hf) := rfl

theorem percAux_succ (ii : ℕ) (hp hf : List ℚ) :
    percAux (ii + 1) hp hf =
      if hp.getD (ii + 1) 0 < hp.getD (ii + 2) 0 then
        percAux ii (swapAt hp (ii + 1) (ii + 2)) (swapAt hf (ii + 1) (ii + 2))
      else (hp, hf) := rfl

theorem percAux_length : ∀ (ii : ℕ) (hp hf : List ℚ),
    (percAux ii hp hf).1.length = hp.length ∧
    (percAux ii hp hf).2.length = hf.length := by
  intro ii
  induction ii with
  | zero =>
      intro hp hf
      rw [percAux_zero]
      split_ifs
      · exact ⟨swapAt_length hp 0 1, swapAt_length hf 0 1⟩
      · exact ⟨rfl, rfl⟩
  | succ ii ih =>
      intro hp hf
      rw [percAux_succ]
      split_ifs
      · have h := ih (swapAt hp (ii + 1) (ii + 2)) (swapAt hf (ii + 1) (ii + 2))
        rw [swapAt_length, swapAt_length] at h
        exact h
      · exact ⟨rfl, rfl⟩

theorem percAux_perm : ∀ (ii : ℕ) (hp hf : List ℚ), ii + 1 < hp.length →
    (percAux ii hp hf).1.Perm hp := by
  intro ii
  induction ii with
  | zero =>
      intro hp hf h
      rw [percAux_zero]
      split_ifs
      · exact swapAt_perm hp 0 1 (by omega) h
      · exact List.Perm.refl hp
  | succ ii ih =>
      intro hp hf h
      rw [percAux_succ]
      split_ifs
      · refine List.Perm.trans (ih _ _ ?_) (swapAt_perm hp (ii + 1) (ii + 2) (by omega) h)
        rw [swapAt_length]
        omega
      · exact List.Perm.refl hp

theorem percAux_mem_pairs : ∀ (ii : ℕ) (hp hf : List ℚ), hp.length = hf.length →
    ii + 1 < hp.length →
    ∀ x ∈ (percAux ii hp hf).1.zip (percAux ii hp hf).2, x ∈ hp.zip hf := by
  intro ii
  induction ii with
  | zero =>
      intro hp hf hlen hlt x hx
      rw [percAux_zero] at hx
      split_ifs at hx
      · exact mem_swapAt_pairs hp hf hlen 0 1 (by omega) hlt x hx
      · exact hx
  | succ ii ih =>
      intro hp hf hlen hlt x hx
      rw [percAux_succ] at hx
      split_ifs at hx
      · have hx2 := ih (swapAt hp (ii + 1) (ii + 2)) (swapAt hf (ii + 1) (ii + 2))
          (by rw [swapAt_length, swapAt_length]; exact hlen)
          (by rw [swapAt_length]; omega) x hx
        exact mem_swapAt_pairs hp hf hlen (ii + 1) (ii + 2) (by omega) (by omega) x hx2
      · exact hx

theorem percAux_sorted : ∀ (ii : ℕ) (A : List ℚ) (a m : ℚ) (B : List ℚ) (hf : List ℚ),
    A.length = ii → sortedDesc (A ++ a :: B) → (∀ b ∈ B, b < m) →
    sortedDesc (percAux ii (A ++ a :: m :: B) hf).1 := by
  intro ii
  induction ii with
  | zero =>
      intro A a m B hf hA hs hB
      have hAnil : A = [] := List.length_eq_zero.mp hA
      subst hAnil
      simp only [List.nil_append] at hs ⊢
      unfold sortedDesc at hs
      obtain ⟨hra, hrB⟩ := List.pairwise_cons.mp hs
      rw [percAux_zero]
      have hg0 : (a :: m :: B).getD 0 0 = a := rfl
      have hg1 : (a :: m :: B).getD 1 0 = m := rfl
      rw [hg0, hg1]
      split_ifs with hc
      · have hswap : swapAt (a :: m :: B) 0 1 = m :: a :: B := by
          have h := swapAt_append ([] : List ℚ) a m B
          simpa using h
        show sortedDesc (swapAt (a :: m :: B) 0 1)
        rw [hswap]
        refine List.Pairwise.cons ?_ hs
        intro b hb
        rcases List.mem_cons.mp hb with rfl | hb
        · exact le_of_lt hc
        · exact le_of_lt (hB b hb)
      · show sortedDesc (a :: m :: B)
        refine List.Pairwise.cons ?_ (List.Pairwise.cons (fun b hb => le_of_lt (hB b hb)) hrB)
        intro b hb
        rcases List.mem_cons.mp hb with rfl | hb
        · exact not_lt.mp hc
        · exact hra b hb
  | succ ii ih =>
      intro A a m B hf hA hs hB
      rcases A.eq_nil_or_concat with rfl | ⟨A1, a1, hAeq⟩
      · simp at hA
      · rw [List.concat_eq_append] at hAeq
        subst hAeq
        have hA1 : A1.length = ii := by
          simp at hA
          omega
        rw [percAux_succ]
        have hg1 : ((A1 ++ [a1]) ++ a :: m :: B).getD (ii + 1) 0 = a := by
          have h := getD_append_cons 0 (A1 ++ [a1]) a (m :: B)
          simp only [List.length_append, List.length_cons, List.length_nil, hA1] at h
          exact h
        have hg2 : ((A1 ++ [a1]) ++ a :: m :: B).getD (ii + 2) 0 = m := by
          have heq : (A1 ++ [a1]) ++ a :: m :: B = ((A1 ++ [a1]) ++ [a]) ++ m :: B := by
            simp
          have h := getD_append_cons 0 ((A1 ++ [a1]) ++ [a]) m B
          simp only [List.length_append, List.length_cons, List.length_nil, hA1] at h
          rw [heq]
          exact h
        rw [hg1, hg2]
        split_ifs with hc
        · have hswap : swapAt ((A1 ++ [a1]) ++ a :: m :: B) (ii + 1) (ii + 2) =
              (A1 ++ [a1]) ++ m :: a :: B := by
            have h := swapAt_append (A1 ++ [a1]) a m B
            simp only [List.length_append, List.length_cons, List.length_nil, hA1] at h
            exact h
          rw [hswap]
          have heq2 : (A1 ++ [a1]) ++ m :: a :: B = A1 ++ a1 :: m :: a :: B := by simp
          rw [heq2]
          apply ih A1 a1 m (a :: B) _ hA1
          · have heq3 : (A1 ++ [a1]) ++ a :: B = A1 ++ a1 :: a :: B := by simp
            rw [← heq3]
            exact hs
          · intro b hb
            rcases List.mem_cons.mp hb with rfl | hb
            · exact hc
            · exact hB b hb
        · show sortedDesc ((A1 ++ [a1]) ++ a :: m :: B)
          obtain ⟨hsA, hsR, hcross⟩ := List.pairwise_append.mp hs
          obtain ⟨hra, hrB⟩ := List.pairwise_cons.mp hsR
          refine List.pairwise_append.mpr ⟨hsA, ?_, ?_⟩
          · refine List.Pairwise.cons ?_
              (List.Pairwise.cons (fun b hb => le_of_lt (hB b hb)) hrB)
            intro b hb
            rcases List.mem_cons.mp hb with rfl | hb
            · exact not_lt.mp hc
            · exact hra b hb
          · intro x hx y hy
            rcases List.mem_cons.mp hy with rfl | hy
            · exact hcross x hx _ (List.mem_cons_self _ _)
            · rcases List.mem_cons.mp hy with rfl | hy
              · exact le_trans (not_lt.mp hc) (hcross x hx _ (List.mem_cons_self _ _))
              · exact hcross x hx y (List.mem_cons.mpr (Or.inr hy))

/-! ### The percolation step as a whole -/

theorem percolate_lengths (hp hf : List ℚ) (nc : ℕ) :
    (percolate_pows_and_freqs hp hf nc).1.1.length = hp.length ∧
    (percolate_pows_and_freqs hp hf nc).1.2.length = hf.length := by
  unfold percolate_pows_and_freqs
  split_ifs
  · exact percAux_length (nc - 2) hp hf
  · exact ⟨rfl, rfl⟩

/-- The float returned by `percolate_pows_and_freqs` is exactly the
last-slot power of the percolated list. -/
theorem percolate_minpow (hp hf : List ℚ) (nc : ℕ) :
    (percolate_pows_and_freqs hp hf nc).2 =
      (percolate_pows_and_freqs hp hf nc).1.1.getD (nc - 1) 0 := by
  unfold percolate_pows_and_freqs
  split_ifs <;> rfl

theorem percolate_perm (hp hf : List ℚ) (nc : ℕ) (hlen : hp.length = nc) :
    (percolate_pows_and_freqs hp hf nc).1.1.Perm hp := by
  unfold percolate_pows_and_freqs
  split_ifs with h
  · exact percAux_perm (nc - 2) hp hf (by omega)
  · exact List.Perm.refl hp

theorem percolate_mem_pairs (hp hf : List ℚ) (nc : ℕ) (hlen1 : hp.length = nc)
    (hlen : hp.length = hf.length) :
    ∀ x ∈ (percolate_pows_and_freqs hp hf nc).1.1.zip
      (percolate_pows_and_freqs hp hf nc).1.2, x ∈ hp.zip hf := by
  unfold percolate_pows_and_freqs
  split_ifs with h
  · exact percAux_mem_pairs (nc - 2) hp hf hlen (by omega)
  · intro x hx
    exact hx

theorem percolate_sorted (A : List ℚ) (m : ℚ) (hf : List ℚ) (nc : ℕ)
    (hlen : (A ++ [m]).length = nc) (hs : sortedDesc A) :
    sortedDesc (percolate_pows_and_freqs (A ++ [m]) hf nc).1.1 := by
  unfold percolate_pows_and_freqs
  split_ifs with h2
  · rcases A.eq_nil_or_concat with rfl | ⟨A1, a1, hAeq⟩
    · rw [List.length_append] at hlen
      simp at hlen
      omega
    · rw [List.concat_eq_append] at hAeq
      subst hAeq
      have hA1 : A1.length = nc - 2 := by
        simp at hlen
        omega
      have heq : (A1 ++ [a1]) ++ [m] = A1 ++ a1 :: m :: ([] : List ℚ) := by simp
      rw [heq, ← hA1]
      apply percAux_sorted A1.length A1 a1 m [] hf rfl
      · simpa using hs
      · intro b hb
        exact absurd hb (List.not_mem_nil b)
  · rcases A.eq_nil_or_concat with rfl | ⟨A1, a1, hAeq⟩
    · show sortedDesc ([] ++ [m])
      simp only [List.nil_append]
      exact List.sorted_singleton m
    · rw [List.concat_eq_append] at hAeq
      subst hAeq
      rw [List.length_append, List.length_append] at hlen
      simp at hlen
      omega

/-! ### The candidate scan invariant -/

theorem sortedDesc_replicate (n : ℕ) (c : ℚ) : sortedDesc (List.replicate n c) := by
  induction n with
  | zero => exact List.sorted_nil
  | succ m ih =>
      rw [List.replicate_succ]
      refine List.Pairwise.cons ?_ ih
      intro b hb
      rw [List.eq_of_mem_replicate hb]

theorem zip_replicate_pair (n : ℕ) (a b : ℚ) :
    (List.replicate n a).zip (List.replicate n b) = List.replicate n (a, b) := by
  induction n with
  | zero => rfl
  | succ m ih =>
      rw [List.replicate_succ, List.replicate_succ, List.replicate_succ,
        List.zip_cons_cons, ih]

theorem countP_replicate_zero (n : ℕ) :
    (List.replicate n (0 : ℚ)).countP (fun x => decide (0 < x)) = 0 := by
  induction n with
  | zero => rfl
  | succ m ih =>
      rw [List.replicate_succ, List.countP_cons, ih]
      norm_num

theorem countP_set_le (p : ℚ → Bool) : ∀ (l : List ℚ) (i : ℕ) (v : ℚ),
    (l.set i v).countP p ≤ l.countP p + 1 := by
  intro l
  induction l with
  | nil => intro i v; simp
  | cons x t ih =>
      intro i v
      cases i with
      | zero =>
          rw [List.set_cons_zero, List.countP_cons, List.countP_cons]
          have h1 : (if p v then 1 else 0) ≤ 1 := by split_ifs <;> omega
          have h2 : (0 : ℕ) ≤ if p x then 1 else 0 := by omega
          omega
      | succ k =>
          rw [List.set_cons_succ, List.countP_cons, List.countP_cons]
          have := ih k v
          omega

theorem candScanUpto_succ (sump : List ℚ) (nc t : ℕ) :
    candScanUpto sump nc (t + 1) =
      candScanStep nc sump (candScanUpto sump nc t) (1 + t) := by
  unfold candScanUpto
  rw [List.range'_1_concat, List.foldl_append]
  rfl

/-- The master invariant of the scan loop: after scanning bins
`1 .. t`, both vectors still have length `numcands`, the power vector
is sorted non-increasing, `minpow` is the last-slot power, every
(power, frequency) pair is either the untouched `(0, 0)` or a genuinely
inserted pair `(sumpows[j], j/2)` with positive power and `1 ≤ j ≤ t`,
and the number of positive slots is at most the number of positive
scanned bins. -/
theorem candScanUpto_inv (sump : List ℚ) (nc : ℕ) : ∀ (t : ℕ),
    (candScanUpto sump nc t).1.length = nc ∧
    (candScanUpto sump nc t).2.1.length = nc ∧
    sortedDesc (candScanUpto sump nc t).1 ∧
    (candScanUpto sump nc t).2.2 = (candScanUpto sump nc t).1.getD (nc - 1) 0 ∧
    (∀ pr ∈ (candScanUpto sump nc t).1.zip (candScanUpto sump nc t).2.1,
      pr = (0, 0) ∨ (0 < pr.1 ∧ ∃ j ∈ List.range' 1 t,
        pr = (sump.getD j 0, (j : ℚ) / 2))) ∧
    (candScanUpto sump nc t).1.countP (fun x => decide (0 < x)) ≤
      (List.range' 1 t).countP (fun j => decide (0 < sump.getD j 0)) := by
  intro t
  induction t with
  | zero =>
      refine ⟨List.length_replicate nc 0, List.length_replicate nc 0,
        sortedDesc_replicate nc 0, (getD_replicate_zero nc (nc - 1)).symm, ?_, ?_⟩
      · intro pr hpr
        have hpr2 : pr ∈ (List.replicate nc (0 : ℚ)).zip (List.replicate nc (0 : ℚ)) := hpr
        rw [zip_replicate_pair] at hpr2
        exact Or.inl (List.eq_of_mem_replicate hpr2)
      · have hc0 : List.countP (fun x => decide (0 < x)) (List.replicate nc (0 : ℚ)) =
            (0 : ℕ) := countP_replicate_zero nc
        have hc1 : List.countP (fun x => decide (0 < x)) (candScanUpto sump nc 0).1 =
            (0 : ℕ) := hc0
        rw [hc1]
        omega
  | succ t ih =>
      obtain ⟨ihl1, ihl2, ihs, ihm, ihp, ihc⟩ := ih
      rw [candScanUpto_succ]
      unfold candScanStep
      have hcount : (List.range' 1 (t + 1)).countP (fun j => decide (0 < sump.getD j 0)) =
          (List.range' 1 t).countP (fun j => decide (0 < sump.getD j 0)) +
            (if 0 < sump.getD (1 + t) 0 then 1 else 0) := by
        rw [List.range'_1_concat, List.countP_append, List.countP_cons]
        simp
      have hweak : ∀ j, j ∈ List.range' 1 t → j ∈ List.range' 1 (t + 1) := by
        intro j hj
        rw [List.mem_range'] at hj ⊢
        obtain ⟨i, hi, rfl⟩ := hj
        exact ⟨i, by omega, rfl⟩
      split_ifs with hins
      · -- an insertion happens; the last slot is 0 or a positive
        -- inserted power, so 0 ≤ minpow < sumpows[1+t]
        have hminnn : 0 ≤ (candScanUpto sump nc t).2.2 := by
          rw [ihm]
          by_cases hnc : nc = 0
          · rw [getD_out_of_range 0 _ _ (by rw [ihl1]; omega)]
          · have hpr := ihp (((candScanUpto sump nc t).1.zip
              (candScanUpto sump nc t).2.1).getD (nc - 1) (0, 0))
              (getD_mem _ _ _ (by rw [List.length_zip, ihl1, ihl2, Nat.min_self]; omega))
            rw [zip_getD _ _ (by rw [ihl1, ihl2]) (nc - 1)] at hpr
            rcases hpr with h0 | ⟨hpos, _⟩
            · rw [Prod.mk.injEq] at h0
              rw [h0.1]
            · exact le_of_lt hpos
        have hvpos : 0 < sump.getD (1 + t) 0 := lt_of_le_of_lt hminnn hins
        have hl1 : ((candScanUpto sump nc t).1.set (nc - 1)
            (sump.getD (1 + t) 0)).length = nc := by
          rw [List.length_set, ihl1]
        have hl2 : ((candScanUpto sump nc t).2.1.set (nc - 1)
            (((1 + t : ℕ) : ℚ) / 2)).length = nc := by
          rw [List.length_set, ihl2]
        refine ⟨?_, ?_, ?_, ?_, ?_, ?_⟩
        · exact ((percolate_lengths _ _ nc).1).trans hl1
        · exact ((percolate_lengths _ _ nc).2).trans hl2
        · -- sortedness: the prefix was sorted and percolation restores it
          rcases (candScanUpto sump nc t).1.eq_nil_or_concat with hnil | ⟨A, lastv, hAeq⟩
          · have hnc : nc = 0 := by
              rw [hnil] at ihl1
              simpa using ihl1.symm
            subst hnc
            rw [hnil]
            exact List.sorted_nil
          · rw [List.concat_eq_append] at hAeq
            have hA : A.length = nc - 1 := by
              rw [hAeq, List.length_append, List.length_cons, List.length_nil] at ihl1
              omega
            have hnc1 : 1 ≤ nc := by
              rw [hAeq, List.length_append, List.length_cons, List.length_nil] at ihl1
              omega
            rw [hAeq]
            have hset : (A ++ [lastv]).set (nc - 1) (sump.getD (1 + t) 0) =
                A ++ [sump.getD (1 + t) 0] := by
              rw [← hA]
              exact set_append_cons A lastv _ []
            rw [hset]
            refine percolate_sorted A (sump.getD (1 + t) 0) _ nc ?_ ?_
            · rw [List.length_append, List.length_cons, List.length_nil]
              omega
            · have hs2 : sortedDesc (A ++ [lastv]) := hAeq ▸ ihs
              exact List.Pairwise.sublist (List.sublist_append_left A [lastv]) hs2
        · exact percolate_minpow _ _ nc
        · -- every pair is untouched or a genuinely inserted pair
          intro pr hpr
          have hpr2 := percolate_mem_pairs _ _ nc hl1 (by rw [hl1, hl2]) pr hpr
          rw [zip_set _ _ (by rw [ihl1, ihl2]) (nc - 1)] at hpr2
          rcases List.mem_or_eq_of_mem_set hpr2 with hpr3 | hpr4
          · rcases ihp pr hpr3 with h0 | ⟨hpos, j, hj, hpr5⟩
            · exact Or.inl h0
            · exact Or.inr ⟨hpos, j, hweak j hj, hpr5⟩
          · refine Or.inr ⟨by rw [hpr4]; exact hvpos, 1 + t, ?_, by rw [hpr4]⟩
            rw [List.mem_range']
            exact ⟨t, by omega, by omega⟩
        · -- at most one more positive slot, and bin 1+t is positive
          have hperm := percolate_perm
            ((candScanUpto sump nc t).1.set (nc - 1) (sump.getD (1 + t) 0))
            ((candScanUpto sump nc t).2.1.set (nc - 1) (((1 + t : ℕ) : ℚ) / 2)) nc hl1
          rw [hperm.countP_eq]
          have h1 := countP_set_le (fun x => decide (0 < x))
            (candScanUpto sump nc t).1 (nc - 1) (sump.getD (1 + t) 0)
          rw [hcount, if_pos hvpos]
          omega
      · -- no insertion: the state is unchanged
        refine ⟨ihl1, ihl2, ihs, ihm, ?_, ?_⟩
        · intro pr hpr
          rcases ihp pr hpr with h0 | ⟨hpos, j, hj, hpr2⟩
          · exact Or.inl h0
          · exact Or.inr ⟨hpos, j, hweak j hj, hpr2⟩
        · rw [hcount]
          omega

/-! ### Sorted-nonnegative counting -/

theorem countP_ge_prefix : ∀ (l : List ℚ) (k : ℕ), k ≤ l.length →
    (∀ j, j < k → 0 < l.getD j 0) → k ≤ l.countP (fun x => decide (0 < x)) := by
  intro l
  induction l with
  | nil =>
      intro k hk _
      simp only [List.length_nil] at hk
      rw [List.countP_nil]
      omega
  | cons x t ih =>
      intro k hk hall
      cases k with
      | zero => exact Nat.zero_le _
      | succ m =>
          have hx : 0 < x := by
            have h := hall 0 (by omega)
            simpa using h
          rw [List.countP_cons]
          have hm : m ≤ t.countP (fun x => decide (0 < x)) :=
            ih m (by simpa using hk) (fun j hj => by
              have h := hall (j + 1) (by omega)
              simpa using h)
          rw [if_pos (by simpa using hx)]
          omega

theorem sortedDesc_getD_le (l : List ℚ) (hs : sortedDesc l) (i j : ℕ) (hij : i ≤ j)
    (hj : j < l.length) : l.getD j 0 ≤ l.getD i 0 := by
  rcases Nat.eq_or_lt_of_le hij with rfl | hlt
  · exact le_refl _
  · rw [getD_eq_getElem 0 l j hj, getD_eq_getElem 0 l i (by omega)]
    exact List.pairwise_iff_getElem.mp hs i j (by omega) hj hlt

theorem sortedDesc_zero_from (l : List ℚ) (hs : sortedDesc l) (hnn : ∀ x ∈ l, 0 ≤ x)
    (c i : ℕ) (hcount : l.countP (fun x => decide (0 < x)) ≤ c) (hci : c ≤ i) :
    l.getD i 0 = 0 := by
  by_cases hlen : i < l.length
  · by_contra hne
    have hpos : 0 < l.getD i 0 :=
      lt_of_le_of_ne (hnn _ (getD_mem 0 l i hlen)) (Ne.symm hne)
    have hge := countP_ge_prefix l (i + 1) (by omega) (fun j hj =>
      lt_of_lt_of_le hpos (sortedDesc_getD_le l hs j i (by omega) hlen))
    omega
  · exact getD_out_of_range 0 l i (by omega)

/-- The slot at index `idx` of the scan state is the untouched `(0,0)`
pair or an inserted pair with positive power. -/
theorem candScanUpto_slot (sump : List ℚ) (nc t idx : ℕ) (hidx : idx < nc) :
    ((candScanUpto sump nc t).1.getD idx 0, (candScanUpto sump nc t).2.1.getD idx 0) =
      (0, 0) ∨
    (0 < (candScanUpto sump nc t).1.getD idx 0 ∧ ∃ j ∈ List.range' 1 t,
      ((candScanUpto sump nc t).1.getD idx 0, (candScanUpto sump nc t).2.1.getD idx 0) =
        (sump.getD j 0, (j : ℚ) / 2)) := by
  obtain ⟨hl1, hl2, _, _, hp, _⟩ := candScanUpto_inv sump nc t
  have hpr := hp (((candScanUpto sump nc t).1.zip (candScanUpto sump nc t).2.1).getD
    idx (0, 0)) (getD_mem _ _ _ (by rw [List.length_zip, hl1, hl2, Nat.min_self]; omega))
  rw [zip_getD _ _ (by rw [hl1, hl2]) idx] at hpr
  exact hpr

/-- Claim C5: after initialization and after scanning any number of
bins, the power vector is sorted non-increasing, the percolation's
returned value is the last-slot power, and every slot pairs a power
with the frequency inserted alongside it (or is the untouched zero
pair); hence the returned vectors of `search_minifft` are sorted
descending with matching pairs. -/
theorem candidate_list_sorted_paired (sump : List ℚ) (numcands t : ℕ) :
    sortedDesc (candScanUpto sump numcands t).1 ∧
    (candScanUpto sump numcands t).2.2 =
      (candScanUpto sump numcands t).1.getD (numcands - 1) 0 ∧
    (∀ pr ∈ (candScanUpto sump numcands t).1.zip (candScanUpto sump numcands t).2.1,
      pr = (0, 0) ∨ ∃ j ∈ List.range' 1 t, pr = (sump.getD j 0, (j : ℚ) / 2)) ∧
    (∀ (hp2 hf2 : List ℚ) (numcands2 : ℕ),
      (percolate_pows_and_freqs hp2 hf2 numcands2).2 =
        (percolate_pows_and_freqs hp2 hf2 numcands2).1.1.getD (numcands2 - 1) 0) ∧
    (∀ (conv : List (ℚ × ℚ) → List (ℚ × ℚ) → List (ℚ × ℚ)) (kernel : List (ℚ × ℚ))
      (lowaccbins : ℕ) (minifft : List (ℚ × ℚ)) (N : ℕ) (sqrtnorm : ℚ)
      (harmsum numcands2 : ℕ),
      sortedDesc (search_minifft conv kernel lowaccbins minifft N sqrtnorm harmsum
        numcands2).1) := by
  obtain ⟨_, _, hs, hm, hp, _⟩ := candScanUpto_inv sump numcands t
  refine ⟨hs, hm, ?_, percolate_minpow, ?_⟩
  · intro pr hpr
    rcases hp pr hpr with h0 | ⟨_, j, hj, hpr2⟩
    · exact Or.inl h0
    · exact Or.inr ⟨j, hj, hpr2⟩
  · intro conv kernel lowaccbins minifft N sqrtnorm harmsum numcands2
    exact (candScanUpto_inv
      (searchPowers conv kernel lowaccbins minifft N sqrtnorm harmsum).1 numcands2
      ((searchPowers conv kernel lowaccbins minifft N sqrtnorm harmsum).2 - 1)).2.2.1

/-- Claim C10: every entry of the returned `highpows` vector is
nonnegative — slots start at 0 and only ever hold inserted powers that
were strictly positive when inserted. -/
theorem highpows_nonneg (conv : List (ℚ × ℚ) → List (ℚ × ℚ) → List (ℚ × ℚ))
    (kernel : List (ℚ × ℚ)) (lowaccbins : ℕ) (minifft : List (ℚ × ℚ)) (N : ℕ)
    (sqrtnorm : ℚ) (harmsum numcands i : ℕ) :
    0 ≤ (search_minifft conv kernel lowaccbins minifft N sqrtnorm harmsum
      numcands).1.getD i 0 := by
  by_cases hi : i < numcands
  · rcases candScanUpto_slot
      (searchPowers conv kernel lowaccbins minifft N sqrtnorm harmsum).1 numcands
      ((searchPowers conv kernel lowaccbins minifft N sqrtnorm harmsum).2 - 1) i hi with
      h0 | ⟨hpos, _⟩
    · rw [Prod.mk.injEq] at h0
      show (0 : ℚ) ≤ (candScanUpto _ _ _).1.getD i 0
      rw [h0.1]
    · exact le_of_lt hpos
  · have hlen : (candScanUpto
        (searchPowers conv kernel lowaccbins minifft N sqrtnorm harmsum).1 numcands
        ((searchPowers conv kernel lowaccbins minifft N sqrtnorm harmsum).2 - 1)).1.length =
        numcands := (candScanUpto_inv _ _ _).1
    show (0 : ℚ) ≤ (candScanUpto _ _ _).1.getD i 0
    rw [getD_out_of_range 0 _ _ (by rw [hlen]; omega)]

/-- Claim C7: when fewer than `numcands` scanned bins have strictly
positive power, the trailing slots of both returned vectors are exactly
`(0.0, 0.0)` (bin 0 is never scanned, so it never fills a slot). -/
theorem trailing_slots_zero (conv : List (ℚ × ℚ) → List (ℚ × ℚ) → List (ℚ × ℚ))
    (kernel : List (ℚ × ℚ)) (lowaccbins : ℕ) (minifft : List (ℚ × ℚ)) (N : ℕ)
    (sqrtnorm : ℚ) (harmsum numcands i : ℕ)
    (hm : (List.range' 1
        ((searchPowers conv kernel lowaccbins minifft N sqrtnorm harmsum).2 - 1)).countP
        (fun j => decide (0 <
          (searchPowers conv kernel lowaccbins minifft N sqrtnorm harmsum).1.getD j 0)) <
        numcands)
    (hi1 : (List.range' 1
        ((searchPowers conv kernel lowaccbins minifft N sqrtnorm harmsum).2 - 1)).countP
        (fun j => decide (0 <
          (searchPowers conv kernel lowaccbins minifft N sqrtnorm harmsum).1.getD j 0)) ≤ i)
    (hi2 : i < numcands) :
    (search_minifft conv kernel lowaccbins minifft N sqrtnorm harmsum
      numcands).1.getD i 0 = 0 ∧
    (search_minifft conv kernel lowaccbins minifft N sqrtnorm harmsum
      numcands).2.getD i 0 = 0 ∧
    (∀ idx, idx < numcands →
      ((search_minifft conv kernel lowaccbins minifft N sqrtnorm harmsum
          numcands).1.getD idx 0,
        (search_minifft conv kernel lowaccbins minifft N sqrtnorm harmsum
          numcands).2.getD idx 0) = (0, 0) ∨
      ∃ j ∈ List.range' 1
        ((searchPowers conv kernel lowaccbins minifft N sqrtnorm harmsum).2 - 1),
        ((search_minifft conv kernel lowaccbins minifft N sqrtnorm harmsum
            numcands).1.getD idx 0,
          (search_minifft conv kernel lowaccbins minifft N sqrtnorm harmsum
            numcands).2.getD idx 0) =
          ((searchPowers conv kernel lowaccbins minifft N sqrtnorm harmsum).1.getD j 0,
            (j : ℚ) / 2)) := by
  obtain ⟨hl1, hl2, hs, _, hp, hc⟩ := candScanUpto_inv
    (searchPowers conv kernel lowaccbins minifft N sqrtnorm harmsum).1 numcands
    ((searchPowers conv kernel lowaccbins minifft N sqrtnorm harmsum).2 - 1)
  have hnn : ∀ x ∈ (candScanUpto
      (searchPowers conv kernel lowaccbins minifft N sqrtnorm harmsum).1 numcands
      ((searchPowers conv kernel lowaccbins minifft N sqrtnorm harmsum).2 - 1)).1,
      0 ≤ x := by
    intro x hx
    obtain ⟨idx, hidx, rfl⟩ := List.mem_iff_getElem.mp hx
    rw [← getD_eq_getElem 0 _ idx hidx]
    rcases candScanUpto_slot
      (searchPowers conv kernel lowaccbins minifft N sqrtnorm harmsum).1 numcands
      ((searchPowers conv kernel lowaccbins minifft N sqrtnorm harmsum).2 - 1) idx
      (by rw [← hl1]; exact hidx) with h0 | ⟨hpos, _⟩
    · rw [Prod.mk.injEq] at h0
      rw [h0.1]
    · exact le_of_lt hpos
  have hzero : (candScanUpto
      (searchPowers conv kernel lowaccbins minifft N sqrtnorm harmsum).1 numcands
      ((searchPowers conv kernel lowaccbins minifft N sqrtnorm harmsum).2 - 1)).1.getD
        i 0 = 0 :=
    sortedDesc_zero_from _ hs hnn _ i hc hi1
  refine ⟨hzero, ?_, ?_⟩
  · rcases candScanUpto_slot
      (searchPowers conv kernel lowaccbins minifft N sqrtnorm harmsum).1 numcands
      ((searchPowers conv kernel lowaccbins minifft N sqrtnorm harmsum).2 - 1) i hi2 with
      h0 | ⟨hpos, _⟩
    · rw [Prod.mk.injEq] at h0
      exact h0.2
    · rw [hzero] at hpos
      exact absurd hpos (lt_irrefl 0)
  · intro idx hidx
    rcases candScanUpto_slot
      (searchPowers conv kernel lowaccbins minifft N sqrtnorm harmsum).1 numcands
      ((searchPowers conv kernel lowaccbins minifft N sqrtnorm harmsum).2 - 1) idx hidx
      with h0 | ⟨_, j, hj, heq⟩
    · exact Or.inl h0
    · exact Or.inr ⟨j, hj, heq⟩

theorem trailing_slots_zero_witness :
    ((List.range' 1
        ((searchPowers (fun d _ => d) [] 16 [((0 : ℚ), (1 : ℚ))] 1 1 1).2 - 1)).countP
        (fun j => decide (0 <
          (searchPowers (fun d _ => d) [] 16 [((0 : ℚ), (1 : ℚ))] 1 1 1).1.getD j 0)) < 2) ∧
    (search_minifft (fun d _ => d) [] 16 [((0 : ℚ), (1 : ℚ))] 1 1 1 2).1.getD 1 0 = 0 ∧
    (search_minifft (fun d _ => d) [] 16 [((0 : ℚ), (1 : ℚ))] 1 1 1 2).2.getD 1 0 = 0 := by
  have hcv : (List.range' 1
      ((searchPowers (fun d _ => d) [] 16 [((0 : ℚ), (1 : ℚ))] 1 1 1).2 - 1)).countP
      (fun j => decide (0 <
        (searchPowers (fun d _ => d) [] 16 [((0 : ℚ), (1 : ℚ))] 1 1 1).1.getD j 0)) = 1 := by
    norm_num [searchPowers, padfftlen, choosefftlen, spread_no_pad, prepSpread,
      sumpows1, setUpds, pwAt, POWER, List.range', List.range_eq_range', List.set,
      List.replicate, List.getD, List.countP_cons]
  have h := trailing_slots_zero (fun d _ => d) [] 16 [((0 : ℚ), (1 : ℚ))] 1 1 1 2 1
    (by rw [hcv]; omega) (by rw [hcv]) (by omega)
  exact ⟨by rw [hcv]; omega, h.1, h.2.1⟩

/-! ### The kernel cache -/

/-- Claim C9: calling `search_minifft` twice in succession with
identical inputs (and no intervening call with a different length)
yields identical outputs — reuse of the cached kernel on the second
call does not alter the results. -/
theorem search_cached_idempotent (kernelFor : ℕ → List (ℚ × ℚ))
    (conv : List (ℚ × ℚ) → List (ℚ × ℚ) → List (ℚ × ℚ)) (lowaccbins : ℕ)
    (st : KernelCache) (minifft : List (ℚ × ℚ)) (numminifft : ℕ) (sqrtnorm : ℚ)
    (harmsum numcands : ℕ) :
    (search_minifft_cached kernelFor conv lowaccbins
      (search_minifft_cached kernelFor conv lowaccbins st minifft numminifft sqrtnorm
        harmsum numcands).2 minifft numminifft sqrtnorm harmsum numcands).1 =
    (search_minifft_cached kernelFor conv lowaccbins st minifft numminifft sqrtnorm
      harmsum numcands).1 := by
  simp only [search_minifft_cached, ensureKernel]
  by_cases hc : st.firsttime ∨ st.old_numminifft ≠ numminifft
  · rw [if_pos hc]
    simp
  · rw [if_neg hc, if_neg hc]

/-! ### Absence of input validation -/

/-- Claim C3 (a bug in the code relative to the spec): `search_minifft`
performs no input validation at all.  Here `numminifft = 3` is not a
power of two (and the padding policy then returns padding 0, so the C
code's store `spread[nmini2]` writes index 6 of a 6-element buffer, out
of bounds); the call is not rejected — the whole pipeline runs and
returns candidate vectors. -/
theorem search_no_input_validation :
    search_minifft (fun d _ => d) [] 16 [((0 : ℚ), (0 : ℚ)), (1, 0), (0, 0)] 3 1 1 1 =
      ([1], [1]) := by
  norm_num [search_minifft, searchPowers, padfftlen, choosefftlen, spread_no_pad,
    prepSpread, sumpows1, setUpds, pwAt, POWER, candScan, candScanUpto, candScanStep,
    percolate_pows_and_freqs, percAux, swapAt, List.range', List.range_eq_range',
    List.set, List.replicate, List.getD]

end Presto
